import Mathlib

/-! SignalWaveforms: waveform oscillators and the sampling loop

A shallow embedding of `SignalWaveforms.cpp`.

Reading conventions:
* Exact reading.  `float` and `double` values are read as exact real numbers (`ℝ`), `M_PI` as
  `Real.pi`, `std::sin` as `Real.sin` and `std::asin` as `Real.arcsin`; `int sampleRate` is an
  integer (`ℤ`), converted to a real in `1.0f / sampleRate`.  The definitions `generate`,
  `samplingLoop` and `generateAndSaveWaveform` are in this reading.
* Float reading.  Where rounding or the float range decides what the program does, the same
  source lines are embedded once more with that part of the arithmetic kept:
  `SquareWave.generateWith` takes the value of `M_PI` as a parameter (`M_PI_double` is the
  `double` constant), `TriangleWave.generateFinite` keeps the range of the float product
  `2 * amplitude`, and `samplingLoopWith` and `generateAndSaveWaveformWith` take the float
  operations as a parameter (`float32` is IEEE binary32 on finite non-negative values,
  `exactOps` the exact reading).
* The `for` loop of `generateAndSaveWaveform` is a fuel-bounded recursion: the fuel bounds the
  number of body executions and `none` means that the fuel ran out before the loop condition
  became false.
* The CSV output of `generateAndSaveWaveform` is a function of the vector `waveformData`; the
  model returns that vector.
-/

namespace SignalWaveforms

/-! ## The three waveform classes -/

/-- Fields of `class SineWave`. -/
structure SineWave where
  frequency : ℝ
  amplitude : ℝ
  phase : ℝ

/-- Fields of `class SquareWave`. -/
structure SquareWave where
  frequency : ℝ
  amplitude : ℝ
  phase : ℝ

/-- Fields of `class TriangleWave`. -/
structure TriangleWave where
  frequency : ℝ
  amplitude : ℝ
  phase : ℝ

/-- Body of `SineWave::generate`:
`return amplitude * std::sin(2 * M_PI * frequency * time + phase);` -/
noncomputable def SineWave.generate (w : SineWave) (time : ℝ) : ℝ :=
  w.amplitude * Real.sin (2 * Real.pi * w.frequency * time + w.phase)

/-- Setter `SineWave::setFrequency`. -/
def SineWave.setFrequency (w : SineWave) (freq : ℝ) : SineWave := { w with frequency := freq }

/-- Setter `SineWave::setAmplitude`. -/
def SineWave.setAmplitude (w : SineWave) (amp : ℝ) : SineWave := { w with amplitude := amp }

/-- Setter `SineWave::setPhase`. -/
def SineWave.setPhase (w : SineWave) (ph : ℝ) : SineWave := { w with phase := ph }

/-- Body of `SquareWave::generate`:
`float sineValue = std::sin(2 * M_PI * frequency * time + phase);`
`return (sineValue >= 0) ? amplitude : -amplitude;` -/
noncomputable def SquareWave.generate (w : SquareWave) (time : ℝ) : ℝ :=
  let sineValue := Real.sin (2 * Real.pi * w.frequency * time + w.phase)
  if sineValue ≥ 0 then w.amplitude else -w.amplitude

/-- Setter `SquareWave::setFrequency`. -/
def SquareWave.setFrequency (w : SquareWave) (freq : ℝ) : SquareWave :=
  { w with frequency := freq }

/-- Setter `SquareWave::setAmplitude`. -/
def SquareWave.setAmplitude (w : SquareWave) (amp : ℝ) : SquareWave :=
  { w with amplitude := amp }

/-- Setter `SquareWave::setPhase`. -/
def SquareWave.setPhase (w : SquareWave) (ph : ℝ) : SquareWave := { w with phase := ph }

/-- Body of `TriangleWave::generate`:
`float period = 1.0 / frequency;`
`float value = 2 * amplitude / M_PI * std::asin(std::sin(2 * M_PI * frequency * time + phase));`
`return value;`
The local `period` is computed and never read. -/
noncomputable def TriangleWave.generate (w : TriangleWave) (time : ℝ) : ℝ :=
  let _period : ℝ := 1 / w.frequency
  let value := 2 * w.amplitude / Real.pi *
    Real.arcsin (Real.sin (2 * Real.pi * w.frequency * time + w.phase))
  value

/-- Setter `TriangleWave::setFrequency`. -/
def TriangleWave.setFrequency (w : TriangleWave) (freq : ℝ) : TriangleWave :=
  { w with frequency := freq }

/-- Setter `TriangleWave::setAmplitude`. -/
def TriangleWave.setAmplitude (w : TriangleWave) (amp : ℝ) : TriangleWave :=
  { w with amplitude := amp }

/-- Setter `TriangleWave::setPhase`. -/
def TriangleWave.setPhase (w : TriangleWave) (ph : ℝ) : TriangleWave := { w with phase := ph }

/-- The abstract base class `Waveform` with its three derived classes. -/
inductive Waveform where
  | sine (w : SineWave)
  | square (w : SquareWave)
  | triangle (w : TriangleWave)

/-- Virtual dispatch of `Waveform::generate`. -/
noncomputable def Waveform.generate : Waveform → ℝ → ℝ
  | Waveform.sine w, time => w.generate time
  | Waveform.square w, time => w.generate time
  | Waveform.triangle w, time => w.generate time

/-! ## The sampling loop -/

/-- Loop `for (float t = 0; t <= duration; t += timeStep) { ... push_back({t, value}); }` of
`generateAndSaveWaveform`, started in the state `(t, waveformData)`.  The condition is tested
first; each execution of the body uses one unit of fuel. -/
def samplingLoop {K V : Type} [LinearOrderedField K] (generate : K → V) (duration timeStep : K) :
    Nat → K → List (K × V) → Option (List (K × V))
  | 0, t, waveformData => if t ≤ duration then none else some waveformData
  | fuel + 1, t, waveformData =>
    if t ≤ duration then
      let value := generate t
      samplingLoop generate duration timeStep fuel (t + timeStep) (waveformData ++ [(t, value)])
    else some waveformData

/-- Data generation part of `generateAndSaveWaveform`: `timeStep = 1.0f / sampleRate`, then the
loop from `t = 0` with an empty vector.  The result is the vector `waveformData` that is then
written to the file, or `none` when the loop is still running after `fuel` iterations.  A
sample rate of 0, for which the `timeStep` of the code is an infinity, is outside this
reading. -/
noncomputable def generateAndSaveWaveform (waveform : Waveform) (duration : ℝ) (sampleRate : ℤ)
    (fuel : Nat) : Option (List (ℝ × ℝ)) :=
  let timeStep : ℝ := 1 / (sampleRate : ℝ)
  samplingLoop waveform.generate duration timeStep fuel 0 []

/-- Integer-index sampling, as the specification words it: iterate the sample index
`n = 0 .. floor(duration * sampleRate)` and take `t = n / sampleRate`. -/
noncomputable def indexSampling (waveform : Waveform) (duration : ℝ) (sampleRate : ℤ) :
    List (ℝ × ℝ) :=
  (List.range (⌊duration * (sampleRate : ℝ)⌋₊ + 1)).map
    (fun (n : Nat) => ((n : ℝ) / (sampleRate : ℝ), waveform.generate ((n : ℝ) / (sampleRate : ℝ))))

/-! ## Calls of `generate` on an object -/

/-- The call `w.generate(time)` on a `SineWave` object, as a state transformer: the returned
value and the object after the call.  The body of `SineWave::generate` reads the three fields
and assigns none of them. -/
noncomputable def SineWave.generateCall (w : SineWave) (time : ℝ) : ℝ × SineWave :=
  (w.amplitude * Real.sin (2 * Real.pi * w.frequency * time + w.phase), w)

/-- The call `w.generate(time)` on a `SquareWave` object, as a state transformer.  The body
writes the local `sineValue` only. -/
noncomputable def SquareWave.generateCall (w : SquareWave) (time : ℝ) : ℝ × SquareWave :=
  let sineValue := Real.sin (2 * Real.pi * w.frequency * time + w.phase)
  (if sineValue ≥ 0 then w.amplitude else -w.amplitude, w)

/-- Body of `TriangleWave::generate` after the local `period` has received its value, whatever
that value is: the remaining two statements do not read `period`. -/
noncomputable def TriangleWave.generateWithPeriod {P : Type} (_period : P) (w : TriangleWave)
    (time : ℝ) : ℝ :=
  let value := 2 * w.amplitude / Real.pi *
    Real.arcsin (Real.sin (2 * Real.pi * w.frequency * time + w.phase))
  value

/-- The call `w.generate(time)` on a `TriangleWave` object, as a state transformer.  The body
writes the locals `period` and `value` only. -/
noncomputable def TriangleWave.generateCall (w : TriangleWave) (time : ℝ) : ℝ × TriangleWave :=
  let period : ℝ := 1 / w.frequency
  (TriangleWave.generateWithPeriod period w time, w)

/-- Virtual call `waveform.generate(time)` through a `Waveform&`, as a state transformer. -/
noncomputable def Waveform.generateCall : Waveform → ℝ → ℝ × Waveform
  | Waveform.sine w, time => ((w.generateCall time).1, Waveform.sine (w.generateCall time).2)
  | Waveform.square w, time => ((w.generateCall time).1, Waveform.square (w.generateCall time).2)
  | Waveform.triangle w, time =>
    ((w.generateCall time).1, Waveform.triangle (w.generateCall time).2)

/-- A sequence of `generate` calls on one object, one per listed time, as the sampling loop
makes them: the returned values in order and the object after the last call. -/
noncomputable def Waveform.generateCalls : Waveform → List ℝ → List ℝ × Waveform
  | w, [] => ([], w)
  | w, time :: times =>
    ((w.generateCall time).1 :: (Waveform.generateCalls (w.generateCall time).2 times).1,
      (Waveform.generateCalls (w.generateCall time).2 times).2)

/-! ## Waveform selection in `main` -/

/-- The `switch (waveformType)` of `main`: cases 1, 2, 3 construct the waveform from the three
values read, the `default` branch constructs nothing (`none`). -/
def selectWaveform (waveformType : ℤ) (frequency amplitude phase : ℝ) : Option Waveform :=
  if waveformType = 1 then some (Waveform.sine ⟨frequency, amplitude, phase⟩)
  else if waveformType = 2 then some (Waveform.square ⟨frequency, amplitude, phase⟩)
  else if waveformType = 3 then some (Waveform.triangle ⟨frequency, amplitude, phase⟩)
  else none

/-- What a finished run of `main` leaves: its return value, whether the message
`Invalid waveform type selected.` was written to `std::cerr`, and the series built by
`generateAndSaveWaveform` (`none` when that function was not called). -/
structure MainResult where
  exitStatus : ℤ
  invalidTypeReported : Bool
  waveformData : Option (List (ℝ × ℝ))

/-- Function `main` after the four values have been read: the `default` branch reports the
error and returns 1 at once; otherwise `generateAndSaveWaveform` is called with
`duration = 1.0f` and `sampleRate = 1000` and `main` returns 0.  The result is `none` when the
sampling loop is still running after `fuel` iterations. -/
noncomputable def main (waveformType : ℤ) (frequency amplitude phase : ℝ) (fuel : Nat) :
    Option MainResult :=
  let duration : ℝ := 1
  let sampleRate : ℤ := 1000
  match selectWaveform waveformType frequency amplitude phase with
  | none => some ⟨1, true, none⟩
  | some waveform =>
    match generateAndSaveWaveform waveform duration sampleRate fuel with
    | none => none
    | some waveformData => some ⟨0, false, some waveformData⟩

/-! ## The same code over float arithmetic

The definitions above read `float` and `double` as exact reals.  The definitions of this
section keep the parts of the float arithmetic that decide what the program does at some
inputs: the rounded value of `M_PI`, the range of the float product `2 * amplitude`, and the
rounding of every float addition `t += timeStep`. -/

/-- The value of the macro `M_PI` as a `double`, `0x400921FB54442D18`, that is
`884279719003555 / 2^48 = 3.141592653589793115997963...`, slightly below `π`. -/
noncomputable def M_PI_double : ℝ := 884279719003555 / 281474976710656

/-- Body of `SquareWave::generate` with the value of the macro `M_PI` as a parameter:
`float sineValue = std::sin(2 * M_PI * frequency * time + phase);`
`return (sineValue >= 0) ? amplitude : -amplitude;`
`SquareWave.generate` is the case `M_PI = π`. -/
noncomputable def SquareWave.generateWith (M_PI : ℝ) (w : SquareWave) (time : ℝ) : ℝ :=
  let sineValue := Real.sin (2 * M_PI * w.frequency * time + w.phase)
  if sineValue ≥ 0 then w.amplitude else -w.amplitude

/-- Body of `TriangleWave::generate` with the range of `float` taken into account in the
product `2 * amplitude`, which is computed in `float` (an `int` times a `float`).  For a float
`amplitude` the doubling is exact while its magnitude stays below `2^128`; from `2^128` on the
product is an infinity, which `/ M_PI` and `* std::asin(...)` leave an infinity or turn into a
NaN.  The result is `none` when it is no finite number. -/
noncomputable def TriangleWave.generateFinite (w : TriangleWave) (time : ℝ) : Option ℝ :=
  let twice := 2 * w.amplitude
  if |twice| < 2 ^ 128 then
    some (twice / Real.pi *
      Real.arcsin (Real.sin (2 * Real.pi * w.frequency * time + w.phase)))
  else none

/-- The float operations `generateAndSaveWaveform` uses, over a type `F` of float values:
the constants `0` and `1.0f`, the conversion of the `int` sample rate to `float`, the float
division of `1.0f / sampleRate` and the float addition of `t += timeStep`. -/
structure FloatOps (F : Type) where
  zero : F
  one : F
  ofInt : ℤ → F
  div : F → F → F
  add : F → F → F

/-- Loop `for (float t = 0; t <= duration; t += timeStep) { ... push_back({t, value}); }` of
`generateAndSaveWaveform` with `t += timeStep` computed by the float addition `add`.  The
condition is tested first; each execution of the body uses one unit of fuel. -/
def samplingLoopWith {F V : Type} [LinearOrder F] (add : F → F → F) (generate : F → V)
    (duration timeStep : F) : Nat → F → List (F × V) → Option (List (F × V))
  | 0, t, waveformData => if t ≤ duration then none else some waveformData
  | fuel + 1, t, waveformData =>
    if t ≤ duration then
      let value := generate t
      samplingLoopWith add generate duration timeStep fuel (add t timeStep)
        (waveformData ++ [(t, value)])
    else some waveformData

/-- Data generation part of `generateAndSaveWaveform` over the float operations `ops`:
`float timeStep = 1.0f / sampleRate;`, then the loop from `t = 0` with an empty vector. -/
def generateAndSaveWaveformWith {F V : Type} [LinearOrder F] (ops : FloatOps F)
    (generate : F → V) (duration : F) (sampleRate : ℤ) (fuel : Nat) : Option (List (F × V)) :=
  let timeStep : F := ops.div ops.one (ops.ofInt sampleRate)
  samplingLoopWith ops.add generate duration timeStep fuel ops.zero []

/-- Exact real arithmetic as float operations: the reading of `generateAndSaveWaveform`. -/
noncomputable def exactOps : FloatOps ℝ where
  zero := 0
  one := 1
  ofInt := fun n => (n : ℝ)
  div := fun a b => a / b
  add := fun a b => a + b

/-- Number of binary digits of `n`, by repeated halving (`fuel` bounds the halvings). -/
def bitLengthAux : Nat → Nat → Nat
  | 0, _ => 0
  | fuel + 1, n => if n = 0 then 0 else bitLengthAux fuel (n / 2) + 1

/-- Number of binary digits of `n`: `0` for `0`, `k + 1` for `2^k ≤ n < 2^(k+1)`. -/
def bitLength (n : Nat) : Nat := bitLengthAux n n

/-- IEEE 754 binary32 rounding (to nearest, ties to even) of the non-negative rational
`num / den`, where values are counted in units of `2^-149`, the smallest positive `float`:
every finite non-negative `float` is a natural number of these units with at most 24
significant binary digits.  `s` is the number of low digits of the quotient that do not fit;
the remainder of the division only matters to break an apparent tie.  Overflow to infinity
(from `2^277` units on) is not represented. -/
def floatOfRatio (num den : Nat) : Nat :=
  let q0 := num / den
  let rem := num % den
  let s := bitLength q0 - 24
  if s = 0 then
    if 2 * rem < den then q0
    else if 2 * rem > den then q0 + 1
    else if q0 % 2 = 0 then q0 else q0 + 1
  else
    let q := q0 / 2 ^ s
    let r := q0 % 2 ^ s
    if 2 * r < 2 ^ s then q * 2 ^ s
    else if 2 * r > 2 ^ s ∨ rem ≠ 0 then (q + 1) * 2 ^ s
    else if q % 2 = 0 then q * 2 ^ s else (q + 1) * 2 ^ s

/-- Rounding of a natural number of units to `float`. -/
def roundToFloat (n : Nat) : Nat := floatOfRatio n 1

/-- The `float` operations on finite non-negative values, in units of `2^-149`: `1.0f` is
`2^149` units, an `int` is rounded to 24 digits, a quotient and a sum are rounded once.
Negative values, infinities and division by zero are outside this instance. -/
def float32 : FloatOps Nat where
  zero := 0
  one := 2 ^ 149
  ofInt := fun n => roundToFloat (n.toNat * 2 ^ 149)
  div := fun a b => floatOfRatio (a * 2 ^ 149) b
  add := fun a b => roundToFloat (a + b)

/-- The ten sample times of the float loop for duration `1.0f` at sample rate 10, in units of
`2^-149`: `0`, `0.1`, `0.2`, `0.3`, `0.4`, `0.5`, `0.6`, `0.70000005`, `0.8000001`, `0.9000001`
as `float` prints them. -/
def tenthSecondTimes : List Nat :=
  [0, 13421773 * 2 ^ 122, 13421773 * 2 ^ 123, 5033165 * 2 ^ 125, 13421773 * 2 ^ 124, 2 ^ 148,
    5033165 * 2 ^ 126, 2936013 * 2 ^ 127, 6710887 * 2 ^ 126, 1887437 * 2 ^ 128]

/-! ## The loop in closed form -/

/-- Series appended by `m` executions of the loop body started at time `t`. -/
def stepSamples {K V : Type} [LinearOrderedField K] (generate : K → V) (timeStep t : K)
    (m : Nat) : List (K × V) :=
  (List.range m).map (fun (j : Nat) => (t + (j : K) * timeStep, generate (t + (j : K) * timeStep)))

theorem stepSamples_succ {K V : Type} [LinearOrderedField K] (generate : K → V)
    (timeStep t : K) (m : Nat) :
    stepSamples generate timeStep t (m + 1) =
      (t, generate t) :: stepSamples generate timeStep (t + timeStep) m := by
  unfold stepSamples
  rw [List.range_succ_eq_map, List.map_cons, List.map_map]
  have h0 : t + ((0 : Nat) : K) * timeStep = t := by simp
  rw [h0]
  congr 1
  apply List.map_congr_left
  intro j _
  have hj : t + ((j + 1 : Nat) : K) * timeStep = t + timeStep + (j : K) * timeStep := by
    push_cast; ring
  simp only [Function.comp_apply, Nat.succ_eq_add_one, hj]

/-- If the loop condition holds at the first `m` visited times and fails at the next one, the
loop exits after exactly `m` body executions, whatever fuel at least `m` it is given. -/
theorem samplingLoop_exits {K V : Type} [LinearOrderedField K] (generate : K → V)
    (duration timeStep : K) (m : Nat) :
    ∀ (fuel : Nat) (t : K) (waveformData : List (K × V)), m ≤ fuel →
      (∀ j, j < m → t + (j : K) * timeStep ≤ duration) →
      ¬ (t + (m : K) * timeStep ≤ duration) →
      samplingLoop generate duration timeStep fuel t waveformData =
        some (waveformData ++ stepSamples generate timeStep t m) := by
  induction m with
  | zero =>
    intro fuel t waveformData _ _ hstop
    have hstop' : ¬ t ≤ duration := by simpa using hstop
    cases fuel <;> simp [samplingLoop, hstop', stepSamples]
  | succ m ih =>
    intro fuel t waveformData hfuel hrun hstop
    have h0 : t ≤ duration := by simpa using hrun 0 (Nat.succ_pos m)
    obtain ⟨fuel, rfl⟩ : ∃ k, fuel = k + 1 := ⟨fuel - 1, by omega⟩
    have hrun' : ∀ j, j < m → t + timeStep + (j : K) * timeStep ≤ duration := by
      intro j hj
      have := hrun (j + 1) (Nat.succ_lt_succ hj)
      have e : t + ((j + 1 : Nat) : K) * timeStep = t + timeStep + (j : K) * timeStep := by
        push_cast; ring
      rwa [e] at this
    have hstop' : ¬ (t + timeStep + (m : K) * timeStep ≤ duration) := by
      have e : t + ((m + 1 : Nat) : K) * timeStep = t + timeStep + (m : K) * timeStep := by
        push_cast; ring
      rwa [e] at hstop
    have := ih fuel (t + timeStep) (waveformData ++ [(t, generate t)]) (by omega) hrun' hstop'
    simp only [samplingLoop, h0, if_true, this, stepSamples_succ, List.append_assoc,
      List.singleton_append]

/-- If the loop condition holds at the first `fuel + 1` visited times, the fuel runs out. -/
theorem samplingLoop_out_of_fuel {K V : Type} [LinearOrderedField K] (generate : K → V)
    (duration timeStep : K) (fuel : Nat) :
    ∀ (t : K) (waveformData : List (K × V)),
      (∀ j, j ≤ fuel → t + (j : K) * timeStep ≤ duration) →
      samplingLoop generate duration timeStep fuel t waveformData = none := by
  induction fuel with
  | zero =>
    intro t waveformData hrun
    have h0 : t ≤ duration := by simpa using hrun 0 (Nat.le_refl 0)
    simp [samplingLoop, h0]
  | succ fuel ih =>
    intro t waveformData hrun
    have h0 : t ≤ duration := by simpa using hrun 0 (Nat.zero_le _)
    have hrun' : ∀ j, j ≤ fuel → t + timeStep + (j : K) * timeStep ≤ duration := by
      intro j hj
      have := hrun (j + 1) (Nat.succ_le_succ hj)
      have e : t + ((j + 1 : Nat) : K) * timeStep = t + timeStep + (j : K) * timeStep := by
        push_cast; ring
      rwa [e] at this
    simp only [samplingLoop, h0, if_true]
    exact ih (t + timeStep) _ hrun'

/-! ## The sampler at a positive sample rate -/

theorem stepSamples_zero_eq_indexSampling (waveform : Waveform) (duration : ℝ)
    (sampleRate : ℤ) :
    stepSamples waveform.generate (1 / (sampleRate : ℝ)) 0 (⌊duration * (sampleRate : ℝ)⌋₊ + 1) =
      indexSampling waveform duration sampleRate := by
  unfold stepSamples indexSampling
  apply List.map_congr_left
  intro n _
  have e : (0 : ℝ) + (n : ℝ) * (1 / (sampleRate : ℝ)) = (n : ℝ) / (sampleRate : ℝ) := by ring
  rw [e]

theorem visited_le_iff (duration : ℝ) (sampleRate : ℤ) (hR : 0 < sampleRate) (n : Nat) :
    (0 : ℝ) + (n : ℝ) * (1 / (sampleRate : ℝ)) ≤ duration ↔ (n : ℝ) ≤ duration * sampleRate := by
  have hR' : (0 : ℝ) < (sampleRate : ℝ) := by exact_mod_cast hR
  have e : (0 : ℝ) + (n : ℝ) * (1 / (sampleRate : ℝ)) = (n : ℝ) / (sampleRate : ℝ) := by ring
  rw [e, div_le_iff₀ hR']

/-- With enough fuel the sampler returns the integer-index series. -/
theorem generateAndSaveWaveform_enough_fuel (waveform : Waveform) (duration : ℝ)
    (sampleRate : ℤ) (hD : 0 ≤ duration) (hR : 0 < sampleRate) (fuel : Nat)
    (hfuel : ⌊duration * (sampleRate : ℝ)⌋₊ + 1 ≤ fuel) :
    generateAndSaveWaveform waveform duration sampleRate fuel =
      some (indexSampling waveform duration sampleRate) := by
  have hR' : (0 : ℝ) < (sampleRate : ℝ) := by exact_mod_cast hR
  have hDR : 0 ≤ duration * (sampleRate : ℝ) := mul_nonneg hD hR'.le
  unfold generateAndSaveWaveform
  have h := samplingLoop_exits waveform.generate duration (1 / (sampleRate : ℝ))
    (⌊duration * (sampleRate : ℝ)⌋₊ + 1) fuel 0 [] hfuel
    (by
      intro j hj
      rw [visited_le_iff duration sampleRate hR j]
      exact (Nat.le_floor_iff hDR).mp (Nat.lt_succ_iff.mp hj))
    (by
      rw [visited_le_iff duration sampleRate hR, not_le]
      exact_mod_cast Nat.lt_floor_add_one (duration * (sampleRate : ℝ)))
  rw [List.nil_append, stepSamples_zero_eq_indexSampling] at h
  exact h

/-- With too little fuel the sampler is still running. -/
theorem generateAndSaveWaveform_little_fuel (waveform : Waveform) (duration : ℝ)
    (sampleRate : ℤ) (hD : 0 ≤ duration) (hR : 0 < sampleRate) (fuel : Nat)
    (hfuel : fuel ≤ ⌊duration * (sampleRate : ℝ)⌋₊) :
    generateAndSaveWaveform waveform duration sampleRate fuel = none := by
  have hR' : (0 : ℝ) < (sampleRate : ℝ) := by exact_mod_cast hR
  have hDR : 0 ≤ duration * (sampleRate : ℝ) := mul_nonneg hD hR'.le
  unfold generateAndSaveWaveform
  apply samplingLoop_out_of_fuel
  intro j hj
  rw [visited_le_iff duration sampleRate hR j]
  exact (Nat.le_floor_iff hDR).mp (le_trans hj hfuel)

/-- Whatever the fuel, a returned series is the integer-index series. -/
theorem generateAndSaveWaveform_result (waveform : Waveform) (duration : ℝ)
    (sampleRate : ℤ) (hD : 0 ≤ duration) (hR : 0 < sampleRate) (fuel : Nat)
    (series : List (ℝ × ℝ))
    (h : generateAndSaveWaveform waveform duration sampleRate fuel = some series) :
    series = indexSampling waveform duration sampleRate := by
  by_cases hfuel : ⌊duration * (sampleRate : ℝ)⌋₊ + 1 ≤ fuel
  · rw [generateAndSaveWaveform_enough_fuel waveform duration sampleRate hD hR fuel hfuel] at h
    exact (Option.some.inj h).symm
  · rw [generateAndSaveWaveform_little_fuel waveform duration sampleRate hD hR fuel
      (by omega)] at h
    cases h

/-- For a negative duration the loop body never runs. -/
theorem generateAndSaveWaveform_neg_duration (waveform : Waveform) (duration : ℝ)
    (sampleRate : ℤ) (hD : duration < 0) (fuel : Nat) :
    generateAndSaveWaveform waveform duration sampleRate fuel = some [] := by
  have h0 : ¬ ((0 : ℝ) ≤ duration) := not_le.mpr hD
  unfold generateAndSaveWaveform
  cases fuel <;> simp [samplingLoop, h0]

theorem indexSampling_length (waveform : Waveform) (duration : ℝ) (sampleRate : ℤ) :
    (indexSampling waveform duration sampleRate).length =
      ⌊duration * (sampleRate : ℝ)⌋₊ + 1 := by
  simp [indexSampling]

theorem indexSampling_getElem (waveform : Waveform) (duration : ℝ) (sampleRate : ℤ) (n : Nat)
    (hn : n < (indexSampling waveform duration sampleRate).length) :
    (indexSampling waveform duration sampleRate)[n] =
      ((n : ℝ) / (sampleRate : ℝ), waveform.generate ((n : ℝ) / (sampleRate : ℝ))) := by
  simp [indexSampling]

/-! ## Claims on the sampler -/

/-- C1: for a duration `D ≥ 0` and a positive sample rate `R`, the accumulating loop of
`generateAndSaveWaveform` returns, for every fuel of at least `⌊D * R⌋ + 1` iterations, the
integer-index series; a run that returns at all returns that series; and the series has exactly
`⌊D * R⌋ + 1` samples, the `n`-th being `(n / R, waveform.generate (n / R))`. -/
theorem C1_accumulating_loop_is_index_sampling (waveform : Waveform) (duration : ℝ)
    (sampleRate : ℤ) (hD : 0 ≤ duration) (hR : 0 < sampleRate) :
    (∀ fuel, ⌊duration * (sampleRate : ℝ)⌋₊ + 1 ≤ fuel →
      generateAndSaveWaveform waveform duration sampleRate fuel =
        some (indexSampling waveform duration sampleRate)) ∧
    (∀ fuel series, generateAndSaveWaveform waveform duration sampleRate fuel = some series →
      series.length = ⌊duration * (sampleRate : ℝ)⌋₊ + 1 ∧
      ∀ (n : Nat) (hn : n < series.length),
        series[n] = ((n : ℝ) / (sampleRate : ℝ), waveform.generate ((n : ℝ) / (sampleRate : ℝ)))) := by
  refine ⟨fun fuel hfuel =>
    generateAndSaveWaveform_enough_fuel waveform duration sampleRate hD hR fuel hfuel, ?_⟩
  intro fuel series h
  have hs := generateAndSaveWaveform_result waveform duration sampleRate hD hR fuel series h
  subst hs
  exact ⟨indexSampling_length waveform duration sampleRate,
    fun n hn => indexSampling_getElem waveform duration sampleRate n hn⟩

theorem C1_accumulating_loop_is_index_sampling_witness :
    (0 : ℝ) ≤ 1 ∧ (0 : ℤ) < 4 ∧
    ((∀ fuel, ⌊(1 : ℝ) * ((4 : ℤ) : ℝ)⌋₊ + 1 ≤ fuel →
      generateAndSaveWaveform (Waveform.sine ⟨1, 1, 0⟩) 1 4 fuel =
        some (indexSampling (Waveform.sine ⟨1, 1, 0⟩) 1 4)) ∧
    (∀ fuel series, generateAndSaveWaveform (Waveform.sine ⟨1, 1, 0⟩) 1 4 fuel = some series →
      series.length = ⌊(1 : ℝ) * ((4 : ℤ) : ℝ)⌋₊ + 1 ∧
      ∀ (n : Nat) (hn : n < series.length),
        series[n] = ((n : ℝ) / ((4 : ℤ) : ℝ),
          (Waveform.sine ⟨1, 1, 0⟩).generate ((n : ℝ) / ((4 : ℤ) : ℝ))))) :=
  ⟨zero_le_one, by decide,
    C1_accumulating_loop_is_index_sampling (Waveform.sine ⟨1, 1, 0⟩) 1 4 zero_le_one (by decide)⟩

theorem indexSampling_head (waveform : Waveform) (duration : ℝ) (sampleRate : ℤ) :
    (indexSampling waveform duration sampleRate).head? = some (0, waveform.generate 0) := by
  simp [indexSampling, List.range_succ_eq_map]

theorem indexSampling_getLast (waveform : Waveform) (duration : ℝ) (sampleRate : ℤ) :
    (indexSampling waveform duration sampleRate).getLast? =
      some ((⌊duration * (sampleRate : ℝ)⌋₊ : ℝ) / (sampleRate : ℝ),
        waveform.generate ((⌊duration * (sampleRate : ℝ)⌋₊ : ℝ) / (sampleRate : ℝ))) := by
  simp [indexSampling, List.range_succ]

/-- In exact real arithmetic, for every duration and every positive sample rate `R` the sampling loop returns a
series, and in the series it returns the `i`-th time is `i * timeStep` with `timeStep = 1 / R`,
consecutive times are strictly increasing and differ by exactly `1 / R`. -/
theorem exact_sample_times_are_multiples_of_step (waveform : Waveform) (duration : ℝ)
    (sampleRate : ℤ) (hR : 0 < sampleRate) :
    (∃ fuel series, generateAndSaveWaveform waveform duration sampleRate fuel = some series) ∧
    ∀ fuel series, generateAndSaveWaveform waveform duration sampleRate fuel = some series →
      (∀ (i : Nat) (hi : i < series.length),
        (series[i]).1 = (i : ℝ) * (1 / (sampleRate : ℝ))) ∧
      (∀ (i : Nat) (hi : i + 1 < series.length),
        (series[i]).1 < (series[i + 1]).1 ∧
        (series[i + 1]).1 - (series[i]).1 = 1 / (sampleRate : ℝ)) := by
  have hR' : (0 : ℝ) < (sampleRate : ℝ) := by exact_mod_cast hR
  rcases lt_or_le duration 0 with hD | hD
  · refine ⟨⟨0, [], generateAndSaveWaveform_neg_duration waveform duration sampleRate hD 0⟩, ?_⟩
    intro fuel series h
    rw [generateAndSaveWaveform_neg_duration waveform duration sampleRate hD fuel] at h
    have hs : series = [] := (Option.some.inj h).symm
    subst hs
    exact ⟨fun i hi => absurd hi (by simp), fun i hi => absurd hi (by simp)⟩
  · refine ⟨⟨_, _, generateAndSaveWaveform_enough_fuel waveform duration sampleRate hD hR _
      (le_refl _)⟩, ?_⟩
    intro fuel series h
    have hs := generateAndSaveWaveform_result waveform duration sampleRate hD hR fuel series h
    subst hs
    refine ⟨?_, ?_⟩
    · intro i hi
      rw [indexSampling_getElem]
      simp only []
      ring
    · intro i hi
      rw [indexSampling_getElem, indexSampling_getElem]
      simp only []
      refine ⟨?_, ?_⟩
      · apply div_lt_div_of_pos_right _ hR'
        push_cast
        linarith
      · push_cast
        field_simp

/-- In exact real arithmetic, for a duration `D ≥ 0` and a positive sample rate `R` the sampling loop returns a
series; the series it returns is non-empty, its first sample has time `0`, its last sample has
a time `t_last` with `D - 1 / R < t_last ≤ D`, and `t_last = D` when `D * R` is an integer. -/
theorem exact_series_covers_duration (waveform : Waveform) (duration : ℝ) (sampleRate : ℤ)
    (hD : 0 ≤ duration) (hR : 0 < sampleRate) :
    (∃ fuel series, generateAndSaveWaveform waveform duration sampleRate fuel = some series) ∧
    ∀ fuel series, generateAndSaveWaveform waveform duration sampleRate fuel = some series →
      series ≠ [] ∧
      ∃ first last : ℝ × ℝ, series.head? = some first ∧ series.getLast? = some last ∧
        first.1 = 0 ∧ duration - 1 / (sampleRate : ℝ) < last.1 ∧ last.1 ≤ duration ∧
        ((∃ k : ℤ, duration * (sampleRate : ℝ) = (k : ℝ)) → last.1 = duration) := by
  have hR' : (0 : ℝ) < (sampleRate : ℝ) := by exact_mod_cast hR
  have hDR : 0 ≤ duration * (sampleRate : ℝ) := mul_nonneg hD hR'.le
  refine ⟨⟨_, _, generateAndSaveWaveform_enough_fuel waveform duration sampleRate hD hR _
    (le_refl _)⟩, ?_⟩
  intro fuel series h
  have hs := generateAndSaveWaveform_result waveform duration sampleRate hD hR fuel series h
  subst hs
  refine ⟨?_, _, _, indexSampling_head waveform duration sampleRate,
    indexSampling_getLast waveform duration sampleRate, rfl, ?_, ?_, ?_⟩
  · intro hnil
    have := indexSampling_length waveform duration sampleRate
    rw [hnil] at this
    simp at this
  · show duration - 1 / (sampleRate : ℝ) < (⌊duration * (sampleRate : ℝ)⌋₊ : ℝ) / (sampleRate : ℝ)
    have hlt := Nat.lt_floor_add_one (duration * (sampleRate : ℝ))
    rw [lt_div_iff₀ hR', sub_mul, one_div, inv_mul_cancel₀ hR'.ne.symm]
    linarith
  · show (⌊duration * (sampleRate : ℝ)⌋₊ : ℝ) / (sampleRate : ℝ) ≤ duration
    rw [div_le_iff₀ hR']
    exact Nat.floor_le hDR
  · rintro ⟨k, hk⟩
    show (⌊duration * (sampleRate : ℝ)⌋₊ : ℝ) / (sampleRate : ℝ) = duration
    have hk0 : (0 : ℤ) ≤ k := by
      have : (0 : ℝ) ≤ (k : ℝ) := hk ▸ hDR
      exact_mod_cast this
    have hfl : (⌊duration * (sampleRate : ℝ)⌋₊ : ℝ) = duration * (sampleRate : ℝ) := by
      rw [hk]
      obtain ⟨n, rfl⟩ := Int.eq_ofNat_of_zero_le hk0
      simp
    rw [hfl, mul_div_assoc, div_self hR'.ne.symm, mul_one]

/-! ## The waveforms -/

theorem sin_three_pi_div_two : Real.sin (3 * Real.pi / 2) = -1 := by
  have e : 3 * Real.pi / 2 = Real.pi / 2 + Real.pi := by ring
  rw [e, Real.sin_add_pi, Real.sin_pi_div_two]

/-- The argument of the sine moves by a full turn when the time moves by `1 / frequency`. -/
theorem angle_add_period (frequency phase time : ℝ) (hf : frequency ≠ 0) :
    2 * Real.pi * frequency * (time + 1 / frequency) + phase =
      2 * Real.pi * frequency * time + phase + 2 * Real.pi := by
  field_simp
  ring

/-- C4: `SquareWave::generate` returns `amplitude` when the underlying sine is non-negative and
`-amplitude` when it is negative; its result is always one of these two values. -/
theorem C4_square_is_sign_of_sine (frequency amplitude phase time : ℝ) :
    (Real.sin (2 * Real.pi * frequency * time + phase) ≥ 0 →
      SquareWave.generate ⟨frequency, amplitude, phase⟩ time = amplitude) ∧
    (¬ Real.sin (2 * Real.pi * frequency * time + phase) ≥ 0 →
      SquareWave.generate ⟨frequency, amplitude, phase⟩ time = -amplitude) ∧
    (SquareWave.generate ⟨frequency, amplitude, phase⟩ time = amplitude ∨
      SquareWave.generate ⟨frequency, amplitude, phase⟩ time = -amplitude) := by
  refine ⟨fun h => ?_, fun h => ?_, ?_⟩
  · simp only [SquareWave.generate, h, if_true]
  · simp only [SquareWave.generate, h, if_false]
  · by_cases h : Real.sin (2 * Real.pi * frequency * time + phase) ≥ 0
    · left; simp only [SquareWave.generate, h, if_true]
    · right; simp only [SquareWave.generate, h, if_false]

/-- In exact real arithmetic, for a square wave with phase `0` and frequency `f > 0`, `generate` returns `+amplitude`
at every zero crossing `k / (2 f)` of the underlying sine (`k` an integer), in particular at
`t = 0` and at the half-period point `1 / (2 f)`. -/
theorem exact_square_at_zero_crossings (frequency amplitude : ℝ) (hf : 0 < frequency) :
    (∀ k : ℤ, SquareWave.generate ⟨frequency, amplitude, 0⟩ ((k : ℝ) / (2 * frequency)) =
      amplitude) ∧
    SquareWave.generate ⟨frequency, amplitude, 0⟩ 0 = amplitude ∧
    SquareWave.generate ⟨frequency, amplitude, 0⟩ (1 / (2 * frequency)) = amplitude := by
  have hk : ∀ k : ℤ, SquareWave.generate ⟨frequency, amplitude, 0⟩
      ((k : ℝ) / (2 * frequency)) = amplitude := by
    intro k
    have e : 2 * Real.pi * frequency * ((k : ℝ) / (2 * frequency)) + 0 = (k : ℝ) * Real.pi := by
      field_simp
      ring
    have hs : Real.sin (2 * Real.pi * frequency * ((k : ℝ) / (2 * frequency)) + 0) ≥ 0 := by
      rw [e, Real.sin_int_mul_pi]
    simp only [SquareWave.generate, hs, if_true]
  refine ⟨hk, ?_, ?_⟩
  · have := hk 0
    simpa using this
  · have := hk 1
    simpa using this

/-- In exact real arithmetic, for a triangle wave with phase `0`, frequency `f > 0` and amplitude `a`, `generate`
is `a` at the quarter-period point `1 / (4 f)` and `-a` at the three-quarter-period point
`3 / (4 f)`. -/
theorem exact_triangle_peaks (frequency amplitude : ℝ) (hf : 0 < frequency) :
    TriangleWave.generate ⟨frequency, amplitude, 0⟩ (1 / (4 * frequency)) = amplitude ∧
    TriangleWave.generate ⟨frequency, amplitude, 0⟩ (3 / (4 * frequency)) = -amplitude := by
  have hpi : Real.pi ≠ 0 := Real.pi_ne_zero
  constructor
  · have e : 2 * Real.pi * frequency * (1 / (4 * frequency)) + 0 = Real.pi / 2 := by
      field_simp
      ring
    simp only [TriangleWave.generate]
    rw [e, Real.sin_pi_div_two, Real.arcsin_one]
    field_simp
  · have e : 2 * Real.pi * frequency * (3 / (4 * frequency)) + 0 = 3 * Real.pi / 2 := by
      field_simp
      ring
    simp only [TriangleWave.generate]
    rw [e, sin_three_pi_div_two, Real.arcsin_neg_one]
    field_simp
    ring

/-- In exact real arithmetic, for a triangle wave with phase `0`, frequency `f > 0` and amplitude `a`, `generate` is a
continuous function of time, equal to `4 a f t` for `-1/(4f) ≤ t ≤ 1/(4f)` and to
`a (2 - 4 f t)` for `1/(4f) ≤ t ≤ 3/(4f)`. -/
theorem exact_triangle_continuous_piecewise_linear (frequency amplitude : ℝ) (hf : 0 < frequency) :
    Continuous (TriangleWave.generate ⟨frequency, amplitude, 0⟩) ∧
    (∀ t : ℝ, -(1 / (4 * frequency)) ≤ t → t ≤ 1 / (4 * frequency) →
      TriangleWave.generate ⟨frequency, amplitude, 0⟩ t = 4 * amplitude * frequency * t) ∧
    (∀ t : ℝ, 1 / (4 * frequency) ≤ t → t ≤ 3 / (4 * frequency) →
      TriangleWave.generate ⟨frequency, amplitude, 0⟩ t =
        amplitude * (2 - 4 * frequency * t)) := by
  have hpi : Real.pi ≠ 0 := Real.pi_ne_zero
  have hpos : 0 < Real.pi := Real.pi_pos
  have h4f : 0 < 4 * frequency := by linarith
  refine ⟨?_, ?_, ?_⟩
  · unfold TriangleWave.generate
    exact continuous_const.mul (Real.continuous_arcsin.comp
      (Real.continuous_sin.comp ((continuous_const.mul continuous_id).add continuous_const)))
  · intro t h1 h2
    have hlo : -(Real.pi / 2) ≤ 2 * Real.pi * frequency * t + 0 := by
      have : -1 ≤ 4 * frequency * t := by
        have := mul_le_mul_of_nonneg_left h1 h4f.le
        have e : 4 * frequency * -(1 / (4 * frequency)) = -1 := by field_simp
        linarith
      nlinarith
    have hhi : 2 * Real.pi * frequency * t + 0 ≤ Real.pi / 2 := by
      have : 4 * frequency * t ≤ 1 := by
        have := mul_le_mul_of_nonneg_left h2 h4f.le
        have e : 4 * frequency * (1 / (4 * frequency)) = 1 := by field_simp
        linarith
      nlinarith
    simp only [TriangleWave.generate]
    rw [Real.arcsin_sin hlo hhi]
    field_simp
    ring
  · intro t h1 h2
    have e : Real.sin (2 * Real.pi * frequency * t + 0) =
        Real.sin (Real.pi - (2 * Real.pi * frequency * t + 0)) := (Real.sin_pi_sub _).symm
    have hlo : -(Real.pi / 2) ≤ Real.pi - (2 * Real.pi * frequency * t + 0) := by
      have : 4 * frequency * t ≤ 3 := by
        have := mul_le_mul_of_nonneg_left h2 h4f.le
        have e : 4 * frequency * (3 / (4 * frequency)) = 3 := by field_simp
        linarith
      nlinarith
    have hhi : Real.pi - (2 * Real.pi * frequency * t + 0) ≤ Real.pi / 2 := by
      have : 1 ≤ 4 * frequency * t := by
        have := mul_le_mul_of_nonneg_left h1 h4f.le
        have e : 4 * frequency * (1 / (4 * frequency)) = 1 := by field_simp
        linarith
      nlinarith
    simp only [TriangleWave.generate]
    rw [e, Real.arcsin_sin hlo hhi]
    field_simp
    ring

/-- In exact real arithmetic, for each of the three variants and every frequency `f ≠ 0`, `generate (t + 1 / f)`
equals `generate t`. -/
theorem exact_generate_periodic (frequency amplitude phase time : ℝ) (hf : frequency ≠ 0) :
    SineWave.generate ⟨frequency, amplitude, phase⟩ (time + 1 / frequency) =
      SineWave.generate ⟨frequency, amplitude, phase⟩ time ∧
    SquareWave.generate ⟨frequency, amplitude, phase⟩ (time + 1 / frequency) =
      SquareWave.generate ⟨frequency, amplitude, phase⟩ time ∧
    TriangleWave.generate ⟨frequency, amplitude, phase⟩ (time + 1 / frequency) =
      TriangleWave.generate ⟨frequency, amplitude, phase⟩ time := by
  have e := angle_add_period frequency phase time hf
  refine ⟨?_, ?_, ?_⟩
  · simp only [SineWave.generate]
    rw [e, Real.sin_add_two_pi]
  · simp only [SquareWave.generate]
    rw [e, Real.sin_add_two_pi]
  · simp only [TriangleWave.generate]
    rw [e, Real.sin_add_two_pi]

/-! ## The end-to-end scenarios: duration 1 at sample rate 4 -/

theorem floor_one_mul_four : ⌊(1 : ℝ) * ((4 : ℤ) : ℝ)⌋₊ = 4 := by
  have e : (1 : ℝ) * ((4 : ℤ) : ℝ) = ((4 : Nat) : ℝ) := by norm_num
  rw [e, Nat.floor_natCast]

/-- The integer-index series for duration 1 at sample rate 4, written out. -/
theorem indexSampling_one_four (waveform : Waveform) :
    indexSampling waveform 1 4 =
      [(0, waveform.generate 0), (1 / 4, waveform.generate (1 / 4)),
        (1 / 2, waveform.generate (1 / 2)), (3 / 4, waveform.generate (3 / 4)),
        (1, waveform.generate 1)] := by
  have h0 : ((0 : Nat) : ℝ) / ((4 : ℤ) : ℝ) = 0 := by norm_num
  have h1 : ((1 : Nat) : ℝ) / ((4 : ℤ) : ℝ) = 1 / 4 := by norm_num
  have h2 : ((2 : Nat) : ℝ) / ((4 : ℤ) : ℝ) = 1 / 2 := by norm_num
  have h3 : ((3 : Nat) : ℝ) / ((4 : ℤ) : ℝ) = 3 / 4 := by norm_num
  have h4 : ((4 : Nat) : ℝ) / ((4 : ℤ) : ℝ) = 1 := by norm_num
  unfold indexSampling
  rw [floor_one_mul_four]
  have hr : List.range (4 + 1) = [0, 1, 2, 3, 4] := by decide
  rw [hr]
  simp only [List.map_cons, List.map_nil, h0, h1, h2, h3, h4]

/-- The sine of the angle `2π · 1 · t + 0` at the five sample times. -/
theorem sin_at_sample_times :
    Real.sin (2 * Real.pi * 1 * 0 + 0) = 0 ∧
    Real.sin (2 * Real.pi * 1 * (1 / 4) + 0) = 1 ∧
    Real.sin (2 * Real.pi * 1 * (1 / 2) + 0) = 0 ∧
    Real.sin (2 * Real.pi * 1 * (3 / 4) + 0) = -1 ∧
    Real.sin (2 * Real.pi * 1 * 1 + 0) = 0 := by
  have e0 : 2 * Real.pi * 1 * 0 + 0 = 0 := by ring
  have e1 : 2 * Real.pi * 1 * (1 / 4) + 0 = Real.pi / 2 := by ring
  have e2 : 2 * Real.pi * 1 * (1 / 2) + 0 = Real.pi := by ring
  have e3 : 2 * Real.pi * 1 * (3 / 4) + 0 = 3 * Real.pi / 2 := by ring
  have e4 : 2 * Real.pi * 1 * 1 + 0 = 2 * Real.pi := by ring
  rw [e0, e1, e2, e3, e4]
  exact ⟨Real.sin_zero, Real.sin_pi_div_two, Real.sin_pi, sin_three_pi_div_two,
    Real.sin_two_pi⟩

/-- Values of the square wave of scenario 2 at the five sample times. -/
theorem square_at_sample_times :
    SquareWave.generate ⟨1, 2, 0⟩ 0 = 2 ∧
    SquareWave.generate ⟨1, 2, 0⟩ (1 / 4) = 2 ∧
    SquareWave.generate ⟨1, 2, 0⟩ (1 / 2) = 2 ∧
    SquareWave.generate ⟨1, 2, 0⟩ (3 / 4) = -2 ∧
    SquareWave.generate ⟨1, 2, 0⟩ 1 = 2 := by
  obtain ⟨s0, s1, s2, s3, s4⟩ := sin_at_sample_times
  refine ⟨?_, ?_, ?_, ?_, ?_⟩
  · simp only [SquareWave.generate, s0]; norm_num
  · simp only [SquareWave.generate, s1]; norm_num
  · simp only [SquareWave.generate, s2]; norm_num
  · simp only [SquareWave.generate, s3]; norm_num
  · simp only [SquareWave.generate, s4]; norm_num

/-- Values of the sine wave of scenario 1 at the five sample times. -/
theorem sine_at_sample_times :
    SineWave.generate ⟨1, 1, 0⟩ 0 = 0 ∧
    SineWave.generate ⟨1, 1, 0⟩ (1 / 4) = 1 ∧
    SineWave.generate ⟨1, 1, 0⟩ (1 / 2) = 0 ∧
    SineWave.generate ⟨1, 1, 0⟩ (3 / 4) = -1 ∧
    SineWave.generate ⟨1, 1, 0⟩ 1 = 0 := by
  obtain ⟨s0, s1, s2, s3, s4⟩ := sin_at_sample_times
  refine ⟨?_, ?_, ?_, ?_, ?_⟩
  · simp only [SineWave.generate, s0]; norm_num
  · simp only [SineWave.generate, s1]; norm_num
  · simp only [SineWave.generate, s2]; norm_num
  · simp only [SineWave.generate, s3]; norm_num
  · simp only [SineWave.generate, s4]; norm_num

/-- C2, as stated, fails: no run of the sampler on the square wave with frequency 1,
amplitude 2 and phase 0 over duration 1 at sample rate 4 returns a series whose values are
`2, 2, -2, -2, 2`. -/
theorem C2_square_scenario_counterexample :
    ¬ ∃ (fuel : Nat) (series : List (ℝ × ℝ)),
      generateAndSaveWaveform (Waveform.square ⟨1, 2, 0⟩) 1 4 fuel = some series ∧
      series.map Prod.snd = [2, 2, -2, -2, 2] := by
  rintro ⟨fuel, series, hrun, hvals⟩
  have hs := generateAndSaveWaveform_result (Waveform.square ⟨1, 2, 0⟩) 1 4 zero_le_one
    (by decide) fuel series hrun
  obtain ⟨_, _, v2, _, _⟩ := square_at_sample_times
  rw [hs, indexSampling_one_four] at hvals
  simp only [List.map_cons, List.map_nil, Waveform.generate, List.cons.injEq] at hvals
  have h := hvals.2.2.1
  rw [v2] at h
  norm_num at h

/-- In exact real arithmetic, sampling the square wave with frequency 1, amplitude 2 and phase 0 over
duration 1 at sample rate 4 yields five samples, at times 0, 1/4, 1/2, 3/4, 1, whose values
are `2, 2, 2, -2, 2`: the sine is zero at `t = 1/2` and the non-strict test gives `+2`. -/
theorem exact_square_scenario (fuel : Nat) (hfuel : 5 ≤ fuel) :
    generateAndSaveWaveform (Waveform.square ⟨1, 2, 0⟩) 1 4 fuel =
      some [(0, 2), (1 / 4, 2), (1 / 2, 2), (3 / 4, -2), (1, 2)] := by
  obtain ⟨v0, v1, v2, v3, v4⟩ := square_at_sample_times
  rw [generateAndSaveWaveform_enough_fuel (Waveform.square ⟨1, 2, 0⟩) 1 4 zero_le_one
    (by decide) fuel (by rw [floor_one_mul_four]; exact hfuel), indexSampling_one_four]
  simp only [Waveform.generate, v0, v1, v2, v3, v4]

/-- C3: sampling the sine wave with frequency 1, amplitude 1 and phase 0 over duration 1 at
sample rate 4 yields exactly five samples, at times 0, 1/4, 1/2, 3/4, 1, with values
`0, 1, 0, -1, 0`. -/
theorem C3_sine_scenario (fuel : Nat) (hfuel : 5 ≤ fuel) :
    generateAndSaveWaveform (Waveform.sine ⟨1, 1, 0⟩) 1 4 fuel =
      some [(0, 0), (1 / 4, 1), (1 / 2, 0), (3 / 4, -1), (1, 0)] := by
  obtain ⟨v0, v1, v2, v3, v4⟩ := sine_at_sample_times
  rw [generateAndSaveWaveform_enough_fuel (Waveform.sine ⟨1, 1, 0⟩) 1 4 zero_le_one
    (by decide) fuel (by rw [floor_one_mul_four]; exact hfuel), indexSampling_one_four]
  simp only [Waveform.generate, v0, v1, v2, v3, v4]

theorem C3_sine_scenario_witness :
    (5 : Nat) ≤ 5 ∧
    generateAndSaveWaveform (Waveform.sine ⟨1, 1, 0⟩) 1 4 5 =
      some [(0, 0), (1 / 4, 1), (1 / 2, 0), (3 / 4, -1), (1, 0)] :=
  ⟨le_refl 5, C3_sine_scenario 5 (le_refl 5)⟩

/-! ## Setters, selection and purity -/

/-- C11: for each variant, a setter followed by `generate` gives, at every time, the value of a
waveform freshly constructed with that one parameter replaced and the other two kept. -/
theorem C11_setters_change_only_their_parameter (f a p f2 a2 p2 t : ℝ) :
    ((SineWave.mk f a p).setFrequency f2).generate t = (SineWave.mk f2 a p).generate t ∧
    ((SineWave.mk f a p).setAmplitude a2).generate t = (SineWave.mk f a2 p).generate t ∧
    ((SineWave.mk f a p).setPhase p2).generate t = (SineWave.mk f a p2).generate t ∧
    ((SquareWave.mk f a p).setFrequency f2).generate t = (SquareWave.mk f2 a p).generate t ∧
    ((SquareWave.mk f a p).setAmplitude a2).generate t = (SquareWave.mk f a2 p).generate t ∧
    ((SquareWave.mk f a p).setPhase p2).generate t = (SquareWave.mk f a p2).generate t ∧
    ((TriangleWave.mk f a p).setFrequency f2).generate t =
      (TriangleWave.mk f2 a p).generate t ∧
    ((TriangleWave.mk f a p).setAmplitude a2).generate t =
      (TriangleWave.mk f a2 p).generate t ∧
    ((TriangleWave.mk f a p).setPhase p2).generate t = (TriangleWave.mk f a p2).generate t := by
  refine ⟨?_, ?_, ?_, ?_, ?_, ?_, ?_, ?_, ?_⟩
  · simp only [SineWave.setFrequency]
  · simp only [SineWave.setAmplitude]
  · simp only [SineWave.setPhase]
  · simp only [SquareWave.setFrequency]
  · simp only [SquareWave.setAmplitude]
  · simp only [SquareWave.setPhase]
  · simp only [TriangleWave.setFrequency]
  · simp only [TriangleWave.setAmplitude]
  · simp only [TriangleWave.setPhase]

theorem selectWaveform_none (waveformType : ℤ) (frequency amplitude phase : ℝ)
    (h1 : waveformType ≠ 1) (h2 : waveformType ≠ 2) (h3 : waveformType ≠ 3) :
    selectWaveform waveformType frequency amplitude phase = none := by
  simp only [selectWaveform, h1, h2, h3, if_false]

theorem selectWaveform_isSome_iff (waveformType : ℤ) (frequency amplitude phase : ℝ) :
    (selectWaveform waveformType frequency amplitude phase).isSome = true ↔
      waveformType = 1 ∨ waveformType = 2 ∨ waveformType = 3 := by
  unfold selectWaveform
  by_cases h1 : waveformType = 1
  · simp [h1]
  · by_cases h2 : waveformType = 2
    · simp [h2]
    · by_cases h3 : waveformType = 3
      · simp [h3]
      · simp [h1, h2, h3]

theorem floor_one_mul_thousand : ⌊(1 : ℝ) * ((1000 : ℤ) : ℝ)⌋₊ = 1000 := by
  have e : (1 : ℝ) * ((1000 : ℤ) : ℝ) = ((1000 : Nat) : ℝ) := by norm_num
  rw [e, Nat.floor_natCast]

/-- A run of `main` whose waveform was selected: with fuel for the 1001 iterations it returns 0
and has built the series of that waveform for duration 1 at sample rate 1000. -/
theorem main_of_selected (waveformType : ℤ) (frequency amplitude phase : ℝ)
    (waveform : Waveform)
    (hsel : selectWaveform waveformType frequency amplitude phase = some waveform)
    (fuel : Nat) (hfuel : 1001 ≤ fuel) :
    main waveformType frequency amplitude phase fuel =
      some ⟨0, false, some (indexSampling waveform 1 1000)⟩ := by
  have hrun := generateAndSaveWaveform_enough_fuel waveform 1 1000 zero_le_one (by decide) fuel
    (by rw [floor_one_mul_thousand]; exact hfuel)
  simp only [main, hsel, hrun]

/-- C12: the selection constructs a Sine, Square, Triangle waveform with the supplied
parameters for the selectors 1, 2, 3 and succeeds for no other selector; for every other
selector (for instance 4) `main` reports the invalid type, returns 1 and has built no series,
whatever the fuel; for the selectors 1, 2, 3 `main` returns 0 with the sampled series. -/
theorem C12_waveform_selection (frequency amplitude phase : ℝ) :
    selectWaveform 1 frequency amplitude phase =
      some (Waveform.sine ⟨frequency, amplitude, phase⟩) ∧
    selectWaveform 2 frequency amplitude phase =
      some (Waveform.square ⟨frequency, amplitude, phase⟩) ∧
    selectWaveform 3 frequency amplitude phase =
      some (Waveform.triangle ⟨frequency, amplitude, phase⟩) ∧
    (∀ waveformType : ℤ,
      (selectWaveform waveformType frequency amplitude phase).isSome = true ↔
        waveformType = 1 ∨ waveformType = 2 ∨ waveformType = 3) ∧
    (∀ waveformType : ℤ, waveformType ≠ 1 → waveformType ≠ 2 → waveformType ≠ 3 →
      selectWaveform waveformType frequency amplitude phase = none ∧
      ∀ fuel, main waveformType frequency amplitude phase fuel = some ⟨1, true, none⟩) ∧
    (∀ fuel, main 4 frequency amplitude phase fuel = some ⟨1, true, none⟩) ∧
    (∀ fuel, 1001 ≤ fuel →
      main 1 frequency amplitude phase fuel = some ⟨0, false,
        some (indexSampling (Waveform.sine ⟨frequency, amplitude, phase⟩) 1 1000)⟩ ∧
      main 2 frequency amplitude phase fuel = some ⟨0, false,
        some (indexSampling (Waveform.square ⟨frequency, amplitude, phase⟩) 1 1000)⟩ ∧
      main 3 frequency amplitude phase fuel = some ⟨0, false,
        some (indexSampling (Waveform.triangle ⟨frequency, amplitude, phase⟩) 1 1000)⟩) := by
  have s1 : selectWaveform 1 frequency amplitude phase =
      some (Waveform.sine ⟨frequency, amplitude, phase⟩) := by simp [selectWaveform]
  have s2 : selectWaveform 2 frequency amplitude phase =
      some (Waveform.square ⟨frequency, amplitude, phase⟩) := by simp [selectWaveform]
  have s3 : selectWaveform 3 frequency amplitude phase =
      some (Waveform.triangle ⟨frequency, amplitude, phase⟩) := by simp [selectWaveform]
  have hbad : ∀ waveformType : ℤ, waveformType ≠ 1 → waveformType ≠ 2 → waveformType ≠ 3 →
      selectWaveform waveformType frequency amplitude phase = none ∧
      ∀ fuel, main waveformType frequency amplitude phase fuel = some ⟨1, true, none⟩ := by
    intro waveformType h1 h2 h3
    have hn := selectWaveform_none waveformType frequency amplitude phase h1 h2 h3
    refine ⟨hn, fun fuel => ?_⟩
    simp only [main, hn]
  refine ⟨s1, s2, s3, fun waveformType =>
    selectWaveform_isSome_iff waveformType frequency amplitude phase, hbad,
    (hbad 4 (by decide) (by decide) (by decide)).2, ?_⟩
  intro fuel hfuel
  exact ⟨main_of_selected 1 frequency amplitude phase _ s1 fuel hfuel,
    main_of_selected 2 frequency amplitude phase _ s2 fuel hfuel,
    main_of_selected 3 frequency amplitude phase _ s3 fuel hfuel⟩

theorem Waveform.generateCall_snd (w : Waveform) (time : ℝ) : (w.generateCall time).2 = w := by
  cases w <;> rfl

theorem Waveform.generateCall_fst (w : Waveform) (time : ℝ) :
    (w.generateCall time).1 = w.generate time := by
  cases w <;> rfl

theorem Waveform.generateCalls_snd (w : Waveform) (times : List ℝ) :
    (w.generateCalls times).2 = w := by
  induction times generalizing w with
  | nil => rfl
  | cons time times ih =>
    simp only [Waveform.generateCalls]
    rw [ih, Waveform.generateCall_snd]

/-- C16: a call of `generate` leaves the object, hence its frequency, amplitude and phase, as
it was; so does any sequence of calls, and a call at time `t` made after such a sequence returns
the same value as the call at `t` made before it, which is the value of `generate`. -/
theorem C16_generate_has_no_side_effect (w : Waveform) (times : List ℝ) (time : ℝ) :
    (w.generateCall time).2 = w ∧
    (w.generateCalls times).2 = w ∧
    (((w.generateCalls times).2).generateCall time).1 = (w.generateCall time).1 ∧
    (((w.generateCall time).2).generateCall time).1 = (w.generateCall time).1 ∧
    (w.generateCall time).1 = w.generate time := by
  refine ⟨Waveform.generateCall_snd w time, Waveform.generateCalls_snd w times, ?_, ?_,
    Waveform.generateCall_fst w time⟩
  · rw [Waveform.generateCalls_snd]
  · rw [Waveform.generateCall_snd]

/-! ## Bounds, phase wrapping and degenerate parameters -/

/-- In exact real arithmetic, for each variant the magnitude of `generate` is at most the magnitude of the
amplitude, with equality for the square wave. -/
theorem exact_generate_bounded_by_amplitude (frequency amplitude phase time : ℝ) :
    |SineWave.generate ⟨frequency, amplitude, phase⟩ time| ≤ |amplitude| ∧
    |SquareWave.generate ⟨frequency, amplitude, phase⟩ time| = |amplitude| ∧
    |TriangleWave.generate ⟨frequency, amplitude, phase⟩ time| ≤ |amplitude| := by
  refine ⟨?_, ?_, ?_⟩
  · simp only [SineWave.generate]
    rw [abs_mul]
    calc |amplitude| * |Real.sin (2 * Real.pi * frequency * time + phase)|
        ≤ |amplitude| * 1 :=
          mul_le_mul_of_nonneg_left (Real.abs_sin_le_one _) (abs_nonneg _)
      _ = |amplitude| := mul_one _
  · simp only [SquareWave.generate]
    split_ifs
    · rfl
    · exact abs_neg _
  · have hpos : 0 < Real.pi := Real.pi_pos
    have harc : |Real.arcsin (Real.sin (2 * Real.pi * frequency * time + phase))| ≤
        Real.pi / 2 :=
      abs_le.mpr ⟨Real.neg_pi_div_two_le_arcsin _, Real.arcsin_le_pi_div_two _⟩
    have hcoef : |2 * amplitude / Real.pi| = 2 * |amplitude| / Real.pi := by
      rw [abs_div, abs_mul, abs_of_pos hpos, abs_of_pos (two_pos : (0 : ℝ) < 2)]
    simp only [TriangleWave.generate]
    rw [abs_mul, hcoef]
    calc 2 * |amplitude| / Real.pi *
          |Real.arcsin (Real.sin (2 * Real.pi * frequency * time + phase))|
        ≤ 2 * |amplitude| / Real.pi * (Real.pi / 2) :=
          mul_le_mul_of_nonneg_left harc (by positivity)
      _ = |amplitude| := by field_simp

/-- The argument of the sine moves by `k` full turns when the phase moves by `2πk`. -/
theorem angle_add_turns (frequency phase time : ℝ) (k : ℤ) :
    2 * Real.pi * frequency * time + (phase + 2 * Real.pi * (k : ℝ)) =
      2 * Real.pi * frequency * time + phase + (k : ℝ) * (2 * Real.pi) := by
  ring

/-- C14: for each variant and every integer `k`, the waveform with phase `p + 2πk` generates
at every time the same value as the waveform with phase `p`. -/
theorem C14_phase_wraps (frequency amplitude phase time : ℝ) (k : ℤ) :
    SineWave.generate ⟨frequency, amplitude, phase + 2 * Real.pi * (k : ℝ)⟩ time =
      SineWave.generate ⟨frequency, amplitude, phase⟩ time ∧
    SquareWave.generate ⟨frequency, amplitude, phase + 2 * Real.pi * (k : ℝ)⟩ time =
      SquareWave.generate ⟨frequency, amplitude, phase⟩ time ∧
    TriangleWave.generate ⟨frequency, amplitude, phase + 2 * Real.pi * (k : ℝ)⟩ time =
      TriangleWave.generate ⟨frequency, amplitude, phase⟩ time := by
  have e := angle_add_turns frequency phase time k
  refine ⟨?_, ?_, ?_⟩
  · simp only [SineWave.generate]
    rw [e, Real.sin_add_int_mul_two_pi]
  · simp only [SquareWave.generate]
    rw [e, Real.sin_add_int_mul_two_pi]
  · simp only [TriangleWave.generate]
    rw [e, Real.sin_add_int_mul_two_pi]

/-- C17: for a sine wave with phase 0, `generate(0)` is 0 for every frequency and amplitude. -/
theorem C17_sine_at_zero (frequency amplitude : ℝ) :
    SineWave.generate ⟨frequency, amplitude, 0⟩ 0 = 0 := by
  have e : 2 * Real.pi * frequency * 0 + 0 = 0 := by ring
  show amplitude * Real.sin (2 * Real.pi * frequency * 0 + 0) = 0
  rw [e, Real.sin_zero, mul_zero]

/-! ## Termination of the sampling loop -/

/-- In exact real arithmetic, for every duration, of either sign, and every positive sample rate the sampling loop
exits after finitely many iterations: there is an iteration count from which on every fuel
gives the same finished series, which has that many samples. -/
theorem exact_sampling_loop_terminates (waveform : Waveform) (duration : ℝ) (sampleRate : ℤ)
    (hR : 0 < sampleRate) :
    ∃ (iterations : Nat) (series : List (ℝ × ℝ)), series.length = iterations ∧
      ∀ fuel, iterations ≤ fuel →
        generateAndSaveWaveform waveform duration sampleRate fuel = some series := by
  rcases lt_or_le duration 0 with hD | hD
  · exact ⟨0, [], rfl, fun fuel _ =>
      generateAndSaveWaveform_neg_duration waveform duration sampleRate hD fuel⟩
  · exact ⟨⌊duration * (sampleRate : ℝ)⌋₊ + 1, indexSampling waveform duration sampleRate,
      indexSampling_length waveform duration sampleRate, fun fuel hfuel =>
      generateAndSaveWaveform_enough_fuel waveform duration sampleRate hD hR fuel hfuel⟩

/-- C19: for a negative sample rate and a duration `D ≥ 0` the time reached after any number
of iterations is at most `D`, so the loop condition holds every time it is tested and no amount
of fuel lets the loop exit with a series. -/
theorem C19_negative_rate_never_exits (waveform : Waveform) (duration : ℝ) (sampleRate : ℤ)
    (hD : 0 ≤ duration) (hR : sampleRate < 0) :
    (∀ n : Nat, (0 : ℝ) + (n : ℝ) * (1 / (sampleRate : ℝ)) ≤ duration) ∧
    ∀ fuel, generateAndSaveWaveform waveform duration sampleRate fuel = none := by
  have hR' : (sampleRate : ℝ) < 0 := by exact_mod_cast hR
  have hstep : 1 / (sampleRate : ℝ) < 0 := one_div_neg.mpr hR'
  have htime : ∀ n : Nat, (0 : ℝ) + (n : ℝ) * (1 / (sampleRate : ℝ)) ≤ duration := by
    intro n
    have hn : (0 : ℝ) ≤ (n : ℝ) := Nat.cast_nonneg n
    have : (n : ℝ) * (1 / (sampleRate : ℝ)) ≤ 0 := mul_nonpos_of_nonneg_of_nonpos hn hstep.le
    linarith
  refine ⟨htime, fun fuel => ?_⟩
  unfold generateAndSaveWaveform
  exact samplingLoop_out_of_fuel waveform.generate duration (1 / (sampleRate : ℝ)) fuel 0 []
    (fun j _ => htime j)

theorem C19_negative_rate_never_exits_witness :
    (0 : ℝ) ≤ 1 ∧ (-1 : ℤ) < 0 ∧
    ((∀ n : Nat, (0 : ℝ) + (n : ℝ) * (1 / (((-1 : ℤ)) : ℝ)) ≤ 1) ∧
    ∀ fuel, generateAndSaveWaveform (Waveform.square ⟨1, 2, 0⟩) 1 (-1) fuel = none) :=
  ⟨zero_le_one, by decide,
    C19_negative_rate_never_exits (Waveform.square ⟨1, 2, 0⟩) 1 (-1) zero_le_one (by decide)⟩

/-! ## The sampling loop over float arithmetic -/

/-- Over exact real arithmetic the float-parametric loop is the loop `samplingLoop`. -/
theorem samplingLoopWith_exact (generate : ℝ → ℝ) (duration timeStep : ℝ) (fuel : Nat) :
    ∀ (t : ℝ) (waveformData : List (ℝ × ℝ)),
      samplingLoopWith exactOps.add generate duration timeStep fuel t waveformData =
        samplingLoop generate duration timeStep fuel t waveformData := by
  induction fuel with
  | zero => intro t waveformData; rfl
  | succ fuel ih =>
    intro t waveformData
    simp only [samplingLoopWith, samplingLoop]
    split_ifs
    · exact ih _ _
    · rfl

/-- Over exact real arithmetic the float-parametric sampler is `generateAndSaveWaveform`. -/
theorem generateAndSaveWaveformWith_exact (waveform : Waveform) (duration : ℝ)
    (sampleRate : ℤ) (fuel : Nat) :
    generateAndSaveWaveformWith exactOps waveform.generate duration sampleRate fuel =
      generateAndSaveWaveform waveform duration sampleRate fuel := by
  unfold generateAndSaveWaveformWith generateAndSaveWaveform
  exact samplingLoopWith_exact waveform.generate duration _ fuel 0 []

/-- Samples pushed by `m` executions of the loop body started at time `t`, each time obtained
from the previous one by one float addition of `timeStep`. -/
theorem samplingLoopWith_some {F V : Type} [LinearOrder F] (add : F → F → F)
    (generate : F → V) (duration timeStep : F) (fuel : Nat) :
    ∀ (t : F) (waveformData series : List (F × V)),
      samplingLoopWith add generate duration timeStep fuel t waveformData = some series →
      ∃ m : Nat, m ≤ fuel ∧
        series = waveformData ++ (List.range m).map (fun (i : Nat) =>
          ((fun x => add x timeStep)^[i] t, generate ((fun x => add x timeStep)^[i] t))) ∧
        (∀ i, i < m → (fun x => add x timeStep)^[i] t ≤ duration) ∧
        ¬ ((fun x => add x timeStep)^[m] t ≤ duration) := by
  induction fuel with
  | zero =>
    intro t waveformData series h
    by_cases ht : t ≤ duration
    · simp [samplingLoopWith, ht] at h
    · simp only [samplingLoopWith, ht, if_false, Option.some.injEq] at h
      exact ⟨0, le_refl 0, by simp [h], fun i hi => absurd hi (Nat.not_lt_zero i), by simpa using ht⟩
  | succ fuel ih =>
    intro t waveformData series h
    by_cases ht : t ≤ duration
    · simp only [samplingLoopWith, ht, if_true] at h
      obtain ⟨m, hm, hs, hle, hgt⟩ := ih _ _ _ h
      refine ⟨m + 1, Nat.succ_le_succ hm, ?_, ?_, ?_⟩
      · rw [hs, List.range_succ_eq_map, List.map_cons, List.map_map, List.append_assoc]
        simp only [List.singleton_append, Function.iterate_zero, id_eq]
        congr 2
      · intro i hi
        cases i with
        | zero => simpa using ht
        | succ i =>
          have := hle i (Nat.lt_of_succ_lt_succ hi)
          simpa [Function.iterate_succ_apply] using this
      · simpa [Function.iterate_succ_apply] using hgt
    · simp only [samplingLoopWith, ht, if_false, Option.some.injEq] at h
      exact ⟨0, Nat.zero_le _, by simp [h], fun i hi => absurd hi (Nat.not_lt_zero i),
        by simpa using ht⟩

/-- Times of a series returned by the sampler: the `i`-th is `0` advanced `i` times by one
float addition of `timeStep`; each is at most the duration and the next one is not. -/
theorem generateAndSaveWaveformWith_times {F V : Type} [LinearOrder F] (ops : FloatOps F)
    (generate : F → V) (duration : F) (sampleRate : ℤ) (fuel : Nat) (series : List (F × V))
    (h : generateAndSaveWaveformWith ops generate duration sampleRate fuel = some series) :
    (∀ (i : Nat) (hi : i < series.length), (series[i]).1 =
      (fun x => ops.add x (ops.div ops.one (ops.ofInt sampleRate)))^[i] ops.zero) ∧
    (∀ i, i < series.length →
      (fun x => ops.add x (ops.div ops.one (ops.ofInt sampleRate)))^[i] ops.zero ≤ duration) ∧
    ¬ ((fun x => ops.add x (ops.div ops.one (ops.ofInt sampleRate)))^[series.length] ops.zero
      ≤ duration) := by
  unfold generateAndSaveWaveformWith at h
  obtain ⟨m, _, hs, hle, hgt⟩ := samplingLoopWith_some ops.add generate duration _ fuel _ _ _ h
  have hlen : series.length = m := by simp [hs]
  refine ⟨?_, ?_, ?_⟩
  · intro i hi
    subst hs
    simp
  · intro i hi
    exact hle i (hlen ▸ hi)
  · rw [hlen]
    exact hgt

/-- The float loop for duration `1.0f` at sample rate 10: `timeStep` is `0.1f` and the loop
exits after ten iterations with the times `tenthSecondTimes`. -/
theorem float32_tenth_second_run :
    float32.div float32.one (float32.ofInt 10) = 13421773 * 2 ^ 122 ∧
    generateAndSaveWaveformWith float32 (fun _ => ()) (2 ^ 149) 10 10 =
      some (tenthSecondTimes.map (fun t => (t, ()))) := by
  decide!

/-- C10, as stated, fails: in float arithmetic, for duration 1 at sample rate 10 (so that
`D * R` is the integer 10) the loop returns ten samples, the last at time `0.9000001`, not at
the duration. -/
theorem C10_series_boundary_counterexample :
    generateAndSaveWaveformWith float32 (fun _ => ()) (2 ^ 149) 10 10 =
      some (tenthSecondTimes.map (fun t => (t, ()))) ∧
    (tenthSecondTimes.map (fun t => (t, ()))).getLast? = some (1887437 * 2 ^ 128, ()) ∧
    ¬ (∀ series : List (Nat × Unit),
        generateAndSaveWaveformWith float32 (fun _ => ()) (2 ^ 149) 10 10 = some series →
        ∀ last : Nat × Unit, series.getLast? = some last → last.1 = 2 ^ 149) := by
  obtain ⟨_, hrun⟩ := float32_tenth_second_run
  refine ⟨hrun, by decide!, ?_⟩
  intro hall
  have hlast := hall _ hrun (1887437 * 2 ^ 128, ()) (by decide!)
  revert hlast
  decide!

/-- C10, amended: for a duration `D ≥ 0`, over any float arithmetic, a series the loop returns
is non-empty, its first sample has time `0`, and its last sample has a time `t_last ≤ D` such
that one more float addition of `timeStep` gives a time above `D`. -/
theorem C10_series_ends_within_duration {F V : Type} [LinearOrder F] (ops : FloatOps F)
    (generate : F → V) (duration : F) (sampleRate : ℤ) (hD : ops.zero ≤ duration)
    (fuel : Nat) (series : List (F × V))
    (h : generateAndSaveWaveformWith ops generate duration sampleRate fuel = some series) :
    series ≠ [] ∧
    ∃ first last : F × V, series.head? = some first ∧ series.getLast? = some last ∧
      first.1 = ops.zero ∧ last.1 ≤ duration ∧
      duration < ops.add last.1 (ops.div ops.one (ops.ofInt sampleRate)) := by
  obtain ⟨ht, hle, hgt⟩ :=
    generateAndSaveWaveformWith_times ops generate duration sampleRate fuel series h
  have hpos : 0 < series.length := by
    rcases Nat.eq_zero_or_pos series.length with h0 | h0
    · rw [h0, Function.iterate_zero, id_eq] at hgt
      exact absurd hD hgt
    · exact h0
  have hlastlt : series.length - 1 < series.length := by omega
  refine ⟨List.ne_nil_of_length_pos hpos, series[0], series[series.length - 1], ?_, ?_, ?_, ?_,
    ?_⟩
  · rw [List.head?_eq_getElem?, List.getElem?_eq_getElem hpos]
  · rw [List.getLast?_eq_getElem?, List.getElem?_eq_getElem hlastlt]
  · rw [ht 0 hpos, Function.iterate_zero, id_eq]
  · rw [ht _ hlastlt]
    exact hle _ hlastlt
  · rw [ht _ hlastlt]
    have e : series.length = (series.length - 1).succ := by omega
    rw [e, Function.iterate_succ_apply'] at hgt
    exact not_le.mp hgt

theorem C10_series_ends_within_duration_witness :
    float32.zero ≤ 2 ^ 149 ∧
    generateAndSaveWaveformWith float32 (fun _ => ()) (2 ^ 149) 10 10 =
      some (tenthSecondTimes.map (fun t => (t, ()))) ∧
    ((tenthSecondTimes.map (fun t => (t, ()))) ≠ [] ∧
    ∃ first last : Nat × Unit, (tenthSecondTimes.map (fun t => (t, ()))).head? = some first ∧
      (tenthSecondTimes.map (fun t => (t, ()))).getLast? = some last ∧
      first.1 = float32.zero ∧ last.1 ≤ 2 ^ 149 ∧
      2 ^ 149 < float32.add last.1 (float32.div float32.one (float32.ofInt 10))) :=
  ⟨Nat.zero_le _, float32_tenth_second_run.2,
    C10_series_ends_within_duration float32 (fun _ => ()) (2 ^ 149) 10 (Nat.zero_le _) 10
      (tenthSecondTimes.map (fun t => (t, ()))) float32_tenth_second_run.2⟩

/-! ## A float loop that never exits -/

/-- If some property of the time holds at the start, keeps the time within the duration and is
kept by one float addition of `timeStep`, the loop runs out of every fuel. -/
theorem samplingLoopWith_never_exits {F V : Type} [LinearOrder F] (add : F → F → F)
    (generate : F → V) (duration timeStep : F) (stays : F → Prop)
    (hstays : ∀ t, stays t → t ≤ duration ∧ stays (add t timeStep)) (fuel : Nat) :
    ∀ (t : F) (waveformData : List (F × V)), stays t →
      samplingLoopWith add generate duration timeStep fuel t waveformData = none := by
  induction fuel with
  | zero =>
    intro t waveformData ht
    simp only [samplingLoopWith, (hstays t ht).1, if_true]
  | succ fuel ih =>
    intro t waveformData ht
    simp only [samplingLoopWith, (hstays t ht).1, if_true]
    exact ih _ _ (hstays t ht).2

theorem bitLengthAux_le (fuel : Nat) :
    ∀ (n k : Nat), n < 2 ^ k → bitLengthAux fuel n ≤ k := by
  induction fuel with
  | zero => intro n k _; exact Nat.zero_le k
  | succ fuel ih =>
    intro n k hn
    by_cases h0 : n = 0
    · simp only [bitLengthAux, h0, if_true]
      exact Nat.zero_le k
    · simp only [bitLengthAux, h0, if_false]
      cases k with
      | zero =>
        have : n < 1 := by simpa using hn
        omega
      | succ k =>
        have hhalf : n / 2 < 2 ^ k := by
          rw [Nat.div_lt_iff_lt_mul (by decide : 0 < 2)]
          rw [Nat.pow_succ] at hn
          exact hn
        exact Nat.succ_le_succ (ih _ _ hhalf)

/-- A number of units whose digits beyond the 24 leading ones are all zero is a `float`:
rounding leaves it as it is. -/
theorem roundToFloat_of_dvd (n : Nat) (hdvd : 2 ^ (bitLength n - 24) ∣ n) :
    roundToFloat n = n := by
  have hmod : n % 2 ^ (bitLength n - 24) = 0 := Nat.mod_eq_zero_of_dvd hdvd
  have hpow : 0 < 2 ^ (bitLength n - 24) := Nat.two_pow_pos _
  unfold roundToFloat floatOfRatio
  simp only [Nat.div_one, Nat.mod_one, Nat.mul_zero]
  by_cases hs : bitLength n - 24 = 0
  · rw [if_pos hs, if_pos Nat.zero_lt_one]
  · rw [if_neg hs, hmod, Nat.mul_zero, if_pos hpow]
    exact Nat.div_mul_cancel hdvd

/-- A multiple of `2^124` units below `2^148` units (a multiple of `2^-25` below `0.5`) is a
`float`: rounding leaves it as it is. -/
theorem roundToFloat_multiple (k : Nat) (hk : k < 2 ^ 24) :
    roundToFloat (k * 2 ^ 124) = k * 2 ^ 124 := by
  have hlt : k * 2 ^ 124 < 2 ^ 148 := by
    have e : (2 : Nat) ^ 148 = 2 ^ 24 * 2 ^ 124 := by rw [← Nat.pow_add]
    rw [e]
    exact Nat.mul_lt_mul_of_pos_right hk (Nat.two_pow_pos _)
  have hbits : bitLength (k * 2 ^ 124) ≤ 148 := bitLengthAux_le _ _ _ hlt
  exact roundToFloat_of_dvd _ (Dvd.dvd.mul_left (Nat.pow_dvd_pow 2 (by omega)) k)

/-- C18 at its failing input: in float arithmetic, for duration 1 at sample rate `2^25` the
time step is `2^-25`, the time reaches `0.5` and stays there (`0.5f + 2^-25` rounds to `0.5f`),
so the loop condition holds forever and no fuel lets the loop return a series. -/
theorem C18_float_loop_never_exits {V : Type} (generate : Nat → V) (fuel : Nat) :
    float32.div float32.one (float32.ofInt (2 ^ 25)) = 2 ^ 124 ∧
    float32.add (2 ^ 148) (2 ^ 124) = 2 ^ 148 ∧
    generateAndSaveWaveformWith float32 generate (2 ^ 149) (2 ^ 25) fuel = none := by
  have hstep : float32.div float32.one (float32.ofInt (2 ^ 25)) = 2 ^ 124 := by decide!
  have hhalf : float32.add (2 ^ 148) (2 ^ 124) = 2 ^ 148 := by decide!
  have htop : roundToFloat (2 ^ 24 * 2 ^ 124) = 2 ^ 24 * 2 ^ 124 := by decide!
  refine ⟨hstep, hhalf, ?_⟩
  unfold generateAndSaveWaveformWith
  rw [hstep]
  refine samplingLoopWith_never_exits float32.add generate (2 ^ 149) (2 ^ 124)
    (fun t => ∃ k, k ≤ 2 ^ 24 ∧ t = k * 2 ^ 124) ?_ fuel float32.zero []
    ⟨0, Nat.zero_le _, by decide⟩
  rintro t ⟨k, hk, rfl⟩
  refine ⟨?_, ?_⟩
  · have h1 : k * 2 ^ 124 ≤ 2 ^ 24 * 2 ^ 124 := Nat.mul_le_mul_right _ hk
    have h2 : (2 : Nat) ^ 24 * 2 ^ 124 ≤ 2 ^ 149 := by decide
    exact le_trans h1 h2
  · rcases Nat.lt_or_ge k (2 ^ 24) with hlt | hge
    · refine ⟨k + 1, hlt, ?_⟩
      show roundToFloat (k * 2 ^ 124 + 2 ^ 124) = (k + 1) * 2 ^ 124
      have e : k * 2 ^ 124 + 2 ^ 124 = (k + 1) * 2 ^ 124 := by ring
      rw [e]
      rcases Nat.lt_or_ge (k + 1) (2 ^ 24) with hlt1 | hge1
      · exact roundToFloat_multiple (k + 1) hlt1
      · have hk1 : k + 1 = 2 ^ 24 := le_antisymm hlt hge1
        rw [hk1]
        exact htop
    · have hk2 : k = 2 ^ 24 := le_antisymm hk hge
      refine ⟨2 ^ 24, le_refl _, ?_⟩
      rw [hk2]
      have e : (2 : Nat) ^ 24 * 2 ^ 124 = 2 ^ 148 := by decide
      rw [e]
      exact hhalf

/-! ## The square wave with the rounded `M_PI` -/

/-- With `M_PI = π` the parametrised body is `SquareWave.generate`. -/
theorem SquareWave.generateWith_pi (w : SquareWave) (time : ℝ) :
    SquareWave.generateWith Real.pi w time = w.generate time := rfl

theorem M_PI_double_gt_three : 3 < M_PI_double := by
  unfold M_PI_double
  norm_num

/-- The `double` nearest to `π` lies below `π`. -/
theorem M_PI_double_lt_pi : M_PI_double < Real.pi := by
  have h : M_PI_double < 3.14159265358979323846 := by
    unfold M_PI_double
    norm_num
  exact lt_trans h Real.pi_gt_d20

/-- The sine is negative strictly between `π` and `2π`. -/
theorem sin_neg_of_pi_lt_of_lt_two_pi (x : ℝ) (h1 : Real.pi < x) (h2 : x < 2 * Real.pi) :
    Real.sin x < 0 := by
  have h := Real.sin_neg_of_neg_of_neg_pi_lt (x := x - 2 * Real.pi) (by linarith) (by linarith)
  rwa [Real.sin_sub_two_pi] at h

/-- The exact-arithmetic sampler for duration 1 at sample rate 4, for any `generate`. -/
theorem exact_run_one_four (generate : ℝ → ℝ) (fuel : Nat) (hfuel : 5 ≤ fuel) :
    generateAndSaveWaveformWith exactOps generate 1 4 fuel =
      some [(0, generate 0), (1 / 4, generate (1 / 4)), (1 / 2, generate (1 / 2)),
        (3 / 4, generate (3 / 4)), (1, generate 1)] := by
  have hstep : exactOps.div exactOps.one (exactOps.ofInt 4) = (1 / 4 : ℝ) := by
    simp only [exactOps]
    norm_num
  unfold generateAndSaveWaveformWith
  rw [hstep, samplingLoopWith_exact]
  have h := samplingLoop_exits generate 1 (1 / 4 : ℝ) 5 fuel 0 [] hfuel
    (by
      intro j hj
      have hj4 : (j : ℝ) ≤ 4 := by exact_mod_cast Nat.lt_succ_iff.mp hj
      linarith)
    (by norm_num)
  have hzero : exactOps.zero = (0 : ℝ) := rfl
  rw [hzero, h]
  have hr : List.range 5 = [0, 1, 2, 3, 4] := by decide
  have e1 : (0 : ℝ) + ((1 : Nat) : ℝ) * (1 / 4) = 1 / 4 := by norm_num
  have e2 : (0 : ℝ) + ((2 : Nat) : ℝ) * (1 / 4) = 1 / 2 := by norm_num
  have e3 : (0 : ℝ) + ((3 : Nat) : ℝ) * (1 / 4) = 3 / 4 := by norm_num
  have e4 : (0 : ℝ) + ((4 : Nat) : ℝ) * (1 / 4) = 1 := by norm_num
  have e0 : (0 : ℝ) + ((0 : Nat) : ℝ) * (1 / 4) = 0 := by norm_num
  simp only [stepSamples, hr, List.map_cons, List.map_nil, List.nil_append, e0, e1, e2, e3, e4]

/-- C2, amended: sampling the square wave with frequency 1, amplitude 2 and phase 0 over
duration 1 at sample rate 4 yields five samples, at times 0, 1/4, 1/2, 3/4, 1, whose first four
values are `2, 2, 2, -2`; the fifth is `2` or `-2`.  This holds for every value of `M_PI` above
3 and at most `π`, the `double` constant included. -/
theorem C2_square_scenario_first_four (M_PI : ℝ) (hlo : 3 < M_PI) (hhi : M_PI ≤ Real.pi)
    (fuel : Nat) (hfuel : 5 ≤ fuel) :
    ∃ v : ℝ, (v = 2 ∨ v = -2) ∧
      generateAndSaveWaveformWith exactOps (SquareWave.generateWith M_PI ⟨1, 2, 0⟩) 1 4 fuel =
        some [(0, 2), (1 / 4, 2), (1 / 2, 2), (3 / 4, -2), (1, v)] := by
  have hpi4 : Real.pi ≤ 4 := Real.pi_le_four
  have hpos : 0 < Real.pi := Real.pi_pos
  have v0 : SquareWave.generateWith M_PI ⟨1, 2, 0⟩ 0 = 2 := by
    have e : 2 * M_PI * 1 * 0 + 0 = 0 := by ring
    have hs : Real.sin (2 * M_PI * 1 * 0 + 0) ≥ 0 := by rw [e, Real.sin_zero]
    simp only [SquareWave.generateWith, hs, if_true]
  have v1 : SquareWave.generateWith M_PI ⟨1, 2, 0⟩ (1 / 4) = 2 := by
    have hs : Real.sin (2 * M_PI * 1 * (1 / 4) + 0) ≥ 0 :=
      le_of_lt (Real.sin_pos_of_pos_of_lt_pi (by linarith) (by linarith))
    simp only [SquareWave.generateWith, hs, if_true]
  have v2 : SquareWave.generateWith M_PI ⟨1, 2, 0⟩ (1 / 2) = 2 := by
    have hs : Real.sin (2 * M_PI * 1 * (1 / 2) + 0) ≥ 0 :=
      Real.sin_nonneg_of_nonneg_of_le_pi (by linarith) (by linarith)
    simp only [SquareWave.generateWith, hs, if_true]
  have v3 : SquareWave.generateWith M_PI ⟨1, 2, 0⟩ (3 / 4) = -2 := by
    have hs : ¬ Real.sin (2 * M_PI * 1 * (3 / 4) + 0) ≥ 0 :=
      not_le.mpr (sin_neg_of_pi_lt_of_lt_two_pi _ (by linarith) (by linarith))
    simp only [SquareWave.generateWith, hs, if_false]
  refine ⟨SquareWave.generateWith M_PI ⟨1, 2, 0⟩ 1, ?_, ?_⟩
  · by_cases hs : Real.sin (2 * M_PI * 1 * 1 + 0) ≥ 0
    · left; simp only [SquareWave.generateWith, hs, if_true]
    · right; simp only [SquareWave.generateWith, hs, if_false]
  · rw [exact_run_one_four _ fuel hfuel, v0, v1, v2, v3]

theorem C2_square_scenario_first_four_witness :
    3 < M_PI_double ∧ M_PI_double ≤ Real.pi ∧ (5 : Nat) ≤ 5 ∧
    ∃ v : ℝ, (v = 2 ∨ v = -2) ∧
      generateAndSaveWaveformWith exactOps (SquareWave.generateWith M_PI_double ⟨1, 2, 0⟩)
          1 4 5 =
        some [(0, 2), (1 / 4, 2), (1 / 2, 2), (3 / 4, -2), (1, v)] :=
  ⟨M_PI_double_gt_three, le_of_lt M_PI_double_lt_pi, le_refl 5,
    C2_square_scenario_first_four M_PI_double M_PI_double_gt_three
      (le_of_lt M_PI_double_lt_pi) 5 (le_refl 5)⟩

/-- The argument `2 * M_PI` passed to `std::sin` at frequency 1, time 1 and phase 0 has a
negative sine: it lies between `π` and `2π`. -/
theorem sin_two_M_PI_double_neg : Real.sin (2 * M_PI_double * 1 * 1 + 0) < 0 := by
  have h3 := M_PI_double_gt_three
  have hlt := M_PI_double_lt_pi
  have hpi4 : Real.pi ≤ 4 := Real.pi_le_four
  exact sin_neg_of_pi_lt_of_lt_two_pi _ (by linarith) (by linarith)

/-- C5 at its failing input: with `M_PI` the `double` nearest to `π`, the square wave with
frequency 1, amplitude 2 and phase 0 returns `-2` at the zero crossing `t = 2 / (2 * 1) = 1`,
because the sine of `2 * M_PI` is negative. -/
theorem C5_square_at_second_crossing :
    Real.sin (2 * M_PI_double * 1 * ((2 : ℤ) / (2 * 1)) + 0) < 0 ∧
    SquareWave.generateWith M_PI_double ⟨1, 2, 0⟩ ((2 : ℤ) / (2 * 1)) = -2 := by
  have e : (((2 : ℤ) : ℝ) / (2 * 1)) = 1 := by norm_num
  have hs := sin_two_M_PI_double_neg
  rw [e]
  refine ⟨hs, ?_⟩
  have hn : ¬ Real.sin (2 * M_PI_double * 1 * 1 + 0) ≥ 0 := not_le.mpr hs
  simp only [SquareWave.generateWith, hn, if_false]

/-- C8 at its failing input: with `M_PI` the `double` nearest to `π`, the square wave with
frequency 1, amplitude 2 and phase 0 returns `2` at `t = 0` and `-2` one period later, at
`t = 0 + 1 / 1`. -/
theorem C8_square_not_periodic :
    SquareWave.generateWith M_PI_double ⟨1, 2, 0⟩ 0 = 2 ∧
    SquareWave.generateWith M_PI_double ⟨1, 2, 0⟩ (0 + 1 / 1) = -2 := by
  have e : ((0 : ℝ) + 1 / 1) = 1 := by norm_num
  have e0 : 2 * M_PI_double * 1 * 0 + 0 = 0 := by ring
  have h0 : Real.sin (2 * M_PI_double * 1 * 0 + 0) ≥ 0 := by rw [e0, Real.sin_zero]
  have hn : ¬ Real.sin (2 * M_PI_double * 1 * 1 + 0) ≥ 0 := not_le.mpr sin_two_M_PI_double_neg
  rw [e]
  refine ⟨?_, ?_⟩
  · simp only [SquareWave.generateWith, h0, if_true]
  · simp only [SquareWave.generateWith, hn, if_false]

/-! ## The triangle wave beyond the float range -/

/-- While `2 * amplitude` stays in the float range the result is that of
`TriangleWave.generate`. -/
theorem TriangleWave.generateFinite_of_lt (w : TriangleWave) (time : ℝ)
    (h : |2 * w.amplitude| < 2 ^ 128) :
    w.generateFinite time = some (w.generate time) := by
  simp only [TriangleWave.generateFinite, h, if_true, TriangleWave.generate]

/-- With the float `3e38f = 14791142 * 2^104` as amplitude the product `2 * amplitude` leaves
the float range. -/
theorem twice_3e38_overflows : ¬ |2 * (14791142 * 2 ^ 104 : ℝ)| < 2 ^ 128 := by
  rw [abs_of_pos (by positivity)]
  norm_num

/-- C6 at its failing input: for frequency 1, phase 0 and the amplitude `3e38f` the triangle
wave returns no finite value at the quarter-period point `1 / (4 * 1)`, hence not the
amplitude. -/
theorem C6_triangle_peak_overflows :
    TriangleWave.generateFinite ⟨1, 14791142 * 2 ^ 104, 0⟩ (1 / (4 * 1)) = none ∧
    TriangleWave.generateFinite ⟨1, 14791142 * 2 ^ 104, 0⟩ (1 / (4 * 1)) ≠
      some (14791142 * 2 ^ 104) := by
  have h : TriangleWave.generateFinite ⟨1, 14791142 * 2 ^ 104, 0⟩ (1 / (4 * 1)) = none := by
    simp only [TriangleWave.generateFinite, twice_3e38_overflows, if_false]
  exact ⟨h, by rw [h]; exact fun hh => Option.noConfusion hh⟩

/-- C7 at its failing input: for frequency 1, phase 0 and the amplitude
`1.8e38f = 17749370 * 2^103` the triangle wave returns no finite value at `t = 1/1000`, a time
of the first linear piece, hence not `4 * amplitude * frequency * t`. -/
theorem C7_triangle_linear_piece_overflows :
    -(1 / (4 * 1) : ℝ) ≤ 1 / 1000 ∧ (1 / 1000 : ℝ) ≤ 1 / (4 * 1) ∧
    TriangleWave.generateFinite ⟨1, 17749370 * 2 ^ 103, 0⟩ (1 / 1000) = none := by
  have hov : ¬ |2 * (17749370 * 2 ^ 103 : ℝ)| < 2 ^ 128 := by
    rw [abs_of_pos (by positivity)]
    norm_num
  refine ⟨by norm_num, by norm_num, ?_⟩
  simp only [TriangleWave.generateFinite, hov, if_false]

/-- C13 at its failing input: with the amplitude `3e38f` the triangle wave returns no finite
value at any frequency, phase and time, so its magnitude is not bounded by the amplitude. -/
theorem C13_triangle_bound_overflows (frequency phase time : ℝ) :
    TriangleWave.generateFinite ⟨frequency, 14791142 * 2 ^ 104, phase⟩ time = none ∧
    ¬ ∃ v : ℝ, TriangleWave.generateFinite ⟨frequency, 14791142 * 2 ^ 104, phase⟩ time =
      some v ∧ |v| ≤ |(14791142 * 2 ^ 104 : ℝ)| := by
  have h : TriangleWave.generateFinite ⟨frequency, 14791142 * 2 ^ 104, phase⟩ time = none := by
    simp only [TriangleWave.generateFinite, twice_3e38_overflows, if_false]
  refine ⟨h, ?_⟩
  rintro ⟨v, hv, _⟩
  rw [h] at hv
  exact Option.noConfusion hv

end SignalWaveforms
